import Mathlib

/-!
Verification of the Peroxide numerical core: construction utilities
(`seq`, `linspace`, `logspace`, `cbind`, `rbind`, `rand`, precision variants)
from `src/util/non_macro.rs` and the scalar `Normed` implementation from
`src/traits/math.rs`, embedded over exact rationals.
-/

namespace Peroxide

/-- Failure conditions of the design's error taxonomy; in the source these
surface as panics of `assert!` / `assert_eq!` / out-of-bounds indexing. -/
inductive ErrKind where
  | InvalidRange
  | IndexOutOfBounds
  | DimensionMismatch
deriving DecidableEq

/-- Result of a computation that can panic. -/
inductive Res (α : Type) where
  | ok (val : α)
  | err (e : ErrKind)
deriving DecidableEq

/-- Sequencing of fallible computations: a panic aborts the rest. -/
def Res.bind {α β : Type} : Res α → (α → Res β) → Res β
  | Res.ok a, f => f a
  | Res.err e, _ => Res.err e

/-- R-like `seq(start, end, step)` from `src/util/non_macro.rs`: asserts
`end >= start` (else panic, the InvalidRange condition), computes
`l = floor((end - start) / step) + 1` (the `as usize` cast saturates below
at 0, rendered by `Int.toNat`), and fills `v[i] = start + step * i`. -/
def seq (s e step : ℚ) : Res (List ℚ) :=
  if s ≤ e then
    Res.ok ((List.range ((⌊(e - s) / step⌋).toNat + 1)).map
      (fun i : ℕ => s + step * (i : ℚ)))
  else Res.err ErrKind.InvalidRange

/-- A single indexed vector write: Rust `v[i] = x` panics when `i` is not a
valid index, the IndexOutOfBounds condition. -/
def setAt (v : List ℚ) (i : ℕ) (x : ℚ) : Res (List ℚ) :=
  if i < v.length then Res.ok (v.set i x) else Res.err ErrKind.IndexOutOfBounds

/-- Sequential indexed writes `v[i] = f i` over the given index list. -/
def writeLoop (f : ℕ → ℚ) : List ℕ → List ℚ → Res (List ℚ)
  | [], v => Res.ok v
  | i :: is, v => (setAt v i (f i)).bind (writeLoop f is)

/-- MATLAB-like `linspace(start, end, length)` from `src/util/non_macro.rs`:
`step = (end - start)/(length - 1)` when `length > 1` else `0`; allocates
`length` zeros, writes `v[0] = start`, `v[length - 1] = end` (both panic when
`length = 0`), then `v[i] = v[0] + step * i` for `i` in `1..length-1`. -/
def linspace (s e : ℚ) (l : ℕ) : Res (List ℚ) :=
  let step : ℚ := if 1 < l then (e - s) / ((l : ℚ) - 1) else 0
  (setAt (List.replicate l 0) 0 s).bind (fun v =>
    (setAt v (l - 1) e).bind (fun v =>
      writeLoop (fun i => s + step * (i : ℚ)) (List.range' 1 (l - 1 - 1)) v))

/-- Modelled from the spec: the external `base^value` map used by `logspace`
(`f64::powf`, a collaborator outside this repository). On the rational
embedding it is exact for integer exponents, which covers every claim that
evaluates it; non-integer exponents are sent to 0 (never relied upon). -/
def powQ (b x : ℚ) : ℚ := if x.den = 1 then b ^ x.num else 0

/-- NumPy-like `logspace(start, end, length, base)` from
`src/util/non_macro.rs`: asserts `end >= start` (else panic, the InvalidRange
condition), computes the same step as `linspace`, and fills
`v[i] = base.powf(start + step * i)` for every `i` in `0..length`. -/
def logspace (s e : ℚ) (l : ℕ) (b : ℚ) : Res (List ℚ) :=
  if s ≤ e then
    let step : ℚ := if 1 < l then (e - s) / ((l : ℚ) - 1) else 0
    Res.ok ((List.range l).map (fun i : ℕ => powQ b (s + step * (i : ℚ))))
  else Res.err ErrKind.InvalidRange

/-- Modelled from the spec: the external precision-rounding collaborator
`round(value, digits)`, consumed as a pure function; rendered as rounding to
`p` decimal digits over ℚ. -/
def round_with_precision (x : ℚ) (p : ℕ) : ℚ :=
  ((round (x * 10 ^ p) : ℤ) : ℚ) / 10 ^ p

/-- `linspace_with_precision(start, end, length, precision)` from
`src/util/non_macro.rs`: same control flow as `linspace`, with every stored
value passed through `round_with_precision`. -/
def linspace_with_precision (s e : ℚ) (l p : ℕ) : Res (List ℚ) :=
  let step : ℚ := if 1 < l then (e - s) / ((l : ℚ) - 1) else 0
  (setAt (List.replicate l 0) 0 (round_with_precision s p)).bind (fun v =>
    (setAt v (l - 1) (round_with_precision e p)).bind (fun v =>
      writeLoop
        (fun i => round_with_precision
          (round_with_precision s p + step * (i : ℚ)) p)
        (List.range' 1 (l - 1 - 1)) v))

/-- Modelled from the spec: the two-valued layout tag
`crate::structure::matrix::Shape` (its source file is not in the repository
snapshot); `Row` is row-major, `Col` is column-major. -/
inductive Shape where
  | Row
  | Col
deriving DecidableEq

/-- Modelled from the spec: the `Matrix` entity of `crate::structure::matrix`
(its source file is not in the repository snapshot): flat data plus row
count, column count and the layout tag. -/
structure Matrix where
  data : List ℚ
  row : ℕ
  col : ℕ
  shape : Shape
deriving DecidableEq

/-- Modelled from the spec: direct assembly of a `Matrix` from
(data, rows, cols, shape). -/
def matrix (v : List ℚ) (r c : ℕ) (sh : Shape) : Matrix :=
  Matrix.mk v r c sh

/-- Physical offset of logical (i, j): row-major `i·col + j`, column-major
`j·row + i`. -/
def Matrix.offset (m : Matrix) (i j : ℕ) : ℕ :=
  match m.shape with
  | Shape.Row => i * m.col + j
  | Shape.Col => j * m.row + i

/-- Modelled from the spec: `change_shape` re-materializes the data in the
opposite layout — every logical (i, j) is read through the current offset
formula and written through the target one; row and col counts are
unchanged and the tag flips. -/
def Matrix.change_shape (m : Matrix) : Matrix :=
  match m.shape with
  | Shape.Row =>
      Matrix.mk ((List.range (m.row * m.col)).map
        (fun k : ℕ => m.data.getD ((k % m.row) * m.col + (k / m.row)) 0))
        m.row m.col Shape.Col
  | Shape.Col =>
      Matrix.mk ((List.range (m.row * m.col)).map
        (fun k : ℕ => m.data.getD ((k % m.col) * m.row + (k / m.col)) 0))
        m.row m.col Shape.Row

/-- R-like `cbind(m1, m2)` from `src/util/non_macro.rs`: both inputs are
normalized to Col layout via `change_shape` when needed, the row counts must
agree (else panic, the DimensionMismatch condition), and the data sequences
are appended with the column counts summed. -/
def cbind (m1 m2 : Matrix) : Res Matrix :=
  let temp := if m1.shape = Shape.Col then m1 else m1.change_shape
  let temp2 := if m2.shape = Shape.Col then m2 else m2.change_shape
  if temp.row = temp2.row then
    Res.ok (matrix (temp.data ++ temp2.data) temp.row (temp.col + temp2.col)
      Shape.Col)
  else Res.err ErrKind.DimensionMismatch

/-- R-like `rbind(m1, m2)` from `src/util/non_macro.rs`: the transpose of
`cbind` — normalize to Row layout, require equal column counts, append data,
sum the row counts. -/
def rbind (m1 m2 : Matrix) : Res Matrix :=
  let temp := if m1.shape = Shape.Row then m1 else m1.change_shape
  let temp2 := if m2.shape = Shape.Row then m2 else m2.change_shape
  if temp.col = temp2.col then
    Res.ok (matrix (temp.data ++ temp2.data) (temp.row + temp2.row) temp.col
      Shape.Row)
  else Res.err ErrKind.DimensionMismatch

/-- MATLAB-like `zeros(r, c)` from `src/util/non_macro.rs`: an r×c Row
matrix of zeros. -/
def zeros (r c : ℕ) : Matrix := matrix (List.replicate (r * c) 0) r c Shape.Row

/-- Indexed write `m[(i, j)] = x` through the layout-transparent offset
(in bounds at every use below). -/
def Matrix.setIdx (m : Matrix) (i j : ℕ) (x : ℚ) : Matrix :=
  Matrix.mk (m.data.set (m.offset i j) x) m.row m.col m.shape

/-- Modelled from the source call `rng.gen_range(0f64..=1f64)`: the random
source is injected as a stream of draws, one per element in loop order; the
rand crate documents inclusive-range sampling as uniform over the closed
interval, so a valid stream for this call takes values in [0, 1]. -/
def validDraws (d : ℕ → ℚ) : Prop := ∀ n, 0 ≤ d n ∧ d n ≤ 1

/-- `rand(r, c)` from `src/util/non_macro.rs`: starts from `zeros(r, c)` and
writes one fresh draw into each (i, j) through the indexed-write chokepoint;
the (i·c + j)-th draw of the stream lands at logical position (i, j). -/
def rand (r c : ℕ) (d : ℕ → ℚ) : Matrix :=
  (List.range r).foldl (fun m i =>
    (List.range c).foldl (fun m2 j => m2.setIdx i j (d (i * c + j))) m)
    (zeros r c)

/-- The `Norm` selector enumeration from `src/traits/math.rs`. -/
inductive Norm where
  | L1
  | L2
  | Lp (p : ℚ)
  | LInf
  | F
  | Lpq (p q : ℚ)

/-- Modelled from the spec: the floating-point scalar type carrying the
`Normed` impl of `src/traits/math.rs`, as an extended rational — finite
values are exact (the operations the impl performs, absolute value and
division of equal-magnitude operands, are exact in binary floating point),
plus the non-finite values NaN and ±∞. -/
inductive F64 where
  | finite (q : ℚ)
  | nan
  | inf
  | neginf
deriving DecidableEq

/-- `f64::abs`: exact on finite values; NaN propagates, ±∞ map to +∞. -/
def F64.abs : F64 → F64
  | F64.finite q => F64.finite |q|
  | F64.nan => F64.nan
  | F64.inf => F64.inf
  | F64.neginf => F64.inf

/-- IEEE-754 division on the fragment this development needs: finite by
nonzero finite is exact rational division, 0/0 is NaN, x/0 for x ≠ 0 is a
signed infinity, NaN propagates, ∞/∞ is NaN. -/
def F64.div : F64 → F64 → F64
  | F64.finite a, F64.finite b =>
      if b = 0 then
        (if a = 0 then F64.nan else if 0 < a then F64.inf else F64.neginf)
      else F64.finite (a / b)
  | F64.nan, _ => F64.nan
  | _, F64.nan => F64.nan
  | F64.finite _, F64.inf => F64.finite 0
  | F64.finite _, F64.neginf => F64.finite 0
  | F64.inf, F64.finite b => if 0 ≤ b then F64.inf else F64.neginf
  | F64.neginf, F64.finite b => if 0 ≤ b then F64.neginf else F64.inf
  | F64.inf, F64.inf => F64.nan
  | F64.inf, F64.neginf => F64.nan
  | F64.neginf, F64.inf => F64.nan
  | F64.neginf, F64.neginf => F64.nan

/-- `impl Normed for f64`, `norm`: returns `self.abs()` for every kind. -/
def F64.norm (x : F64) (_kind : Norm) : F64 := x.abs

/-- `impl Normed for f64`, `normalize`: returns `self / self.abs()` for
every kind, with no zero-guard. -/
def F64.normalize (x : F64) (_kind : Norm) : F64 := x.div x.abs

-- ---------------------------------------------------------------------------
-- Generic helper lemmas
-- ---------------------------------------------------------------------------

theorem getD_set (v : List ℚ) (i j : ℕ) (x : ℚ) (hi : i < v.length) :
    (v.set i x).getD j 0 = if j = i then x else v.getD j 0 := by
  by_cases h : j = i
  · subst h
    simp [List.getD, List.getElem?_set_self, hi]
  · simp [List.getD, List.getElem?_set_ne (fun hji => h hji.symm), h]

theorem writeLoop_ok (f : ℕ → ℚ) (is : List ℕ) (v : List ℚ)
    (h : ∀ i ∈ is, i < v.length) :
    ∃ w, writeLoop f is v = Res.ok w ∧ w.length = v.length ∧
      ∀ j, w.getD j 0 = if j ∈ is then f j else v.getD j 0 := by
  induction is generalizing v with
  | nil => exact ⟨v, rfl, rfl, fun j => by simp⟩
  | cons i is ih =>
    have hi : i < v.length := h i (List.mem_cons_self i is)
    have hset : setAt v i (f i) = Res.ok (v.set i (f i)) := by
      simp [setAt, hi]
    have hlen : (v.set i (f i)).length = v.length := by simp
    obtain ⟨w, hw, hwl, hwj⟩ := ih (v.set i (f i)) (fun k hk => by
      rw [hlen]; exact h k (List.mem_cons_of_mem i hk))
    refine ⟨w, ?_, by rw [hwl, hlen], ?_⟩
    · simp [writeLoop, hset, Res.bind, hw]
    · intro j
      rw [hwj j, getD_set v i j (f i) hi]
      by_cases hji : j ∈ is
      · simp [hji]
      · by_cases hje : j = i <;> simp [hji, hje]

theorem fill_ok (x y : ℚ) (f : ℕ → ℚ) (l : ℕ) (h1 : 1 ≤ l) :
    ∃ v, (setAt (List.replicate l 0) 0 x).bind (fun v =>
        (setAt v (l - 1) y).bind (fun v =>
          writeLoop f (List.range' 1 (l - 1 - 1)) v)) = Res.ok v ∧
      v.length = l ∧
      ∀ j, j < l → v.getD j 0 =
        if j = l - 1 then y
        else if j = 0 then x
        else f j := by
  have h0 : (0 : ℕ) < (List.replicate l (0:ℚ)).length := by
    simp only [List.length_replicate]; omega
  have hset0 : setAt (List.replicate l (0:ℚ)) 0 x
      = Res.ok ((List.replicate l (0:ℚ)).set 0 x) := by
    unfold setAt; rw [if_pos h0]
  set v1 := (List.replicate l (0:ℚ)).set 0 x with hv1
  have hv1l : v1.length = l := by simp [hv1]
  have hl1 : l - 1 < v1.length := by rw [hv1l]; omega
  have hset1 : setAt v1 (l - 1) y = Res.ok (v1.set (l - 1) y) := by
    unfold setAt; rw [if_pos hl1]
  set v2 := v1.set (l - 1) y with hv2
  have hv2l : v2.length = l := by rw [hv2, List.length_set, hv1l]
  obtain ⟨w, hw, hwl, hwj⟩ := writeLoop_ok f
    (List.range' 1 (l - 1 - 1)) v2 (by
      intro i hi
      rw [hv2l]
      have hm := List.mem_range'_1.mp hi
      omega)
  refine ⟨w, ?_, by rw [hwl, hv2l], ?_⟩
  · simp only [hset0, Res.bind, hset1]
    exact hw
  · intro j hj
    rw [hwj j]
    by_cases hmem : j ∈ List.range' 1 (l - 1 - 1)
    · have hm := List.mem_range'_1.mp hmem
      have hj0 : j ≠ 0 := by omega
      have hjl : j ≠ l - 1 := by omega
      simp [hmem, hj0, hjl]
    · rw [if_neg hmem]
      have hm : ¬ (1 ≤ j ∧ j < 1 + (l - 1 - 1)) := fun hc =>
        hmem (List.mem_range'_1.mpr hc)
      have hcase : j = l - 1 ∨ j = 0 := by omega
      rcases hcase with hc | hc
      · subst hc
        rw [hv2, getD_set v1 (l - 1) (l - 1) y hl1]
        simp
      · subst hc
        by_cases hl0 : l = 1
        · subst hl0
          rw [hv2, getD_set v1 (1 - 1) 0 y hl1]
          simp
        · have hne : (0 : ℕ) ≠ l - 1 := by omega
          rw [hv2, getD_set v1 (l - 1) 0 y hl1, if_neg hne, hv1,
            getD_set (List.replicate l (0:ℚ)) 0 0 x h0]
          simp [hne]

theorem linspace_closed (s e : ℚ) (l : ℕ) (h1 : 1 ≤ l) :
    ∃ v, linspace s e l = Res.ok v ∧ v.length = l ∧
      ∀ j, j < l → v.getD j 0 =
        if j = l - 1 then e
        else if j = 0 then s
        else s + (if 1 < l then (e - s) / ((l : ℚ) - 1) else 0) * (j : ℚ) := by
  obtain ⟨v, hv, hlen, hget⟩ := fill_ok s e
    (fun i : ℕ => s + (if 1 < l then (e - s) / ((l : ℚ) - 1) else 0) * (i : ℚ))
    l h1
  exact ⟨v, by simp only [linspace]; exact hv, hlen, hget⟩

theorem lwp_total (s e : ℚ) (l p : ℕ) (h1 : 1 ≤ l) :
    ∃ v, linspace_with_precision s e l p = Res.ok v := by
  obtain ⟨v, hv, -, -⟩ := fill_ok (round_with_precision s p)
    (round_with_precision e p)
    (fun i : ℕ => round_with_precision
      (round_with_precision s p
        + (if 1 < l then (e - s) / ((l : ℚ) - 1) else 0) * (i : ℚ)) p)
    l h1
  exact ⟨v, by simp only [linspace_with_precision]; exact hv⟩

-- ---------------------------------------------------------------------------
-- Claim theorems
-- ---------------------------------------------------------------------------

/-- C1: for every start ≤ end and positive step, `seq(start, end, step)`
succeeds and returns a sequence of length ⌊(end − start)/step⌋ + 1 whose
i-th element is start + i·step; the first element is exactly start and the
last does not exceed end; in particular seq(1, 10, 2) = [1, 3, 5, 7, 9] and
seq(1, 1, 1) = [1]. -/
theorem claim1_seq :
    (∀ s e step : ℚ, s ≤ e → 0 < step →
      ∃ v, seq s e step = Res.ok v ∧
        v.length = (⌊(e - s) / step⌋).toNat + 1 ∧
        (∀ i, i < v.length → v.getD i 0 = s + step * (i : ℚ)) ∧
        v.getD 0 0 = s ∧
        v.getD (v.length - 1) 0 ≤ e) ∧
    seq 1 10 2 = Res.ok [1, 3, 5, 7, 9] ∧ seq 1 1 1 = Res.ok [1] := by
  refine ⟨?_, ?_, ?_⟩
  · intro s e step hse hstep
    refine ⟨(List.range ((⌊(e - s) / step⌋).toNat + 1)).map
      (fun i : ℕ => s + step * (i : ℚ)), by rw [seq, if_pos hse],
      by simp only [List.length_map, List.length_range], ?_, ?_, ?_⟩
    · intro i hi
      simp only [List.length_map, List.length_range] at hi
      rw [List.getD_eq_getElem _ _
        (by simp only [List.length_map, List.length_range]; exact hi)]
      simp only [List.getElem_map, List.getElem_range]
    · rw [List.getD_eq_getElem _ _
        (by simp only [List.length_map, List.length_range]; omega)]
      simp only [List.getElem_map, List.getElem_range]
      norm_num
    · have hF : (0 : ℚ) ≤ (e - s) / step :=
        div_nonneg (sub_nonneg.mpr hse) hstep.le
      have hfl : (0 : ℤ) ≤ ⌊(e - s) / step⌋ := Int.floor_nonneg.mpr hF
      have hlen : ((List.range ((⌊(e - s) / step⌋).toNat + 1)).map
          (fun i : ℕ => s + step * (i : ℚ))).length
          = (⌊(e - s) / step⌋).toNat + 1 := by
        simp only [List.length_map, List.length_range]
      rw [hlen]
      rw [List.getD_eq_getElem _ _ (by rw [hlen]; omega)]
      simp only [Nat.add_sub_cancel, List.getElem_map, List.getElem_range]
      have hcast := congrArg (fun z : ℤ => (z : ℚ)) (Int.toNat_of_nonneg hfl)
      push_cast at hcast
      rw [hcast]
      have hle : ((⌊(e - s) / step⌋ : ℤ) : ℚ) ≤ (e - s) / step :=
        Int.floor_le ((e - s) / step)
      have hmul : step * ((⌊(e - s) / step⌋ : ℤ) : ℚ) ≤ step * ((e - s) / step) :=
        mul_le_mul_of_nonneg_left hle hstep.le
      have hcancel : step * ((e - s) / step) = e - s := by
        field_simp
      linarith
  · have h4 : ⌊((10 : ℚ) - 1) / 2⌋ = (4 : ℤ) := by
      rw [Int.floor_eq_iff]
      · norm_num
    have hf : (⌊((10 : ℚ) - 1) / 2⌋).toNat + 1 = 5 := by rw [h4]; rfl
    simp only [seq, if_pos (by norm_num : (1 : ℚ) ≤ 10), hf]
    norm_num [List.range_succ]
  · have h0 : ⌊((1 : ℚ) - 1) / 1⌋ = (0 : ℤ) := by
      rw [Int.floor_eq_iff]
      · norm_num
    have hf : (⌊((1 : ℚ) - 1) / 1⌋).toNat + 1 = 1 := by rw [h0]; rfl
    simp only [seq, if_pos (le_refl (1 : ℚ)), hf]
    norm_num [List.range_succ]

/-- Witness for C1 at start = 1, end = 10, step = 2. -/
theorem claim1_seq_witness :
    (1 : ℚ) ≤ 10 ∧ (0 : ℚ) < 2 ∧
    (∃ v, seq 1 10 2 = Res.ok v ∧
      v.length = (⌊((10 : ℚ) - 1) / 2⌋).toNat + 1 ∧
      (∀ i, i < v.length → v.getD i 0 = 1 + 2 * (i : ℚ)) ∧
      v.getD 0 0 = 1 ∧
      v.getD (v.length - 1) 0 ≤ 10) :=
  ⟨by norm_num, by norm_num,
    claim1_seq.1 1 10 2 (by norm_num) (by norm_num)⟩

/-- C3: for every start, end and length ≥ 2, `linspace(start, end, length)`
succeeds with exactly `length` values, first exactly start, last exactly end,
and element i equal to start + i·(end − start)/(length − 1); in particular
linspace(1, 10, 10) = seq(1, 10, 1), of length 10. -/
theorem claim3_linspace :
    (∀ (s e : ℚ) (l : ℕ), 2 ≤ l →
      ∃ v, linspace s e l = Res.ok v ∧ v.length = l ∧
        v.getD 0 0 = s ∧ v.getD (l - 1) 0 = e ∧
        (∀ i, i < l → v.getD i 0 = s + (i : ℚ) * (e - s) / ((l : ℚ) - 1))) ∧
    linspace 1 10 10 = seq 1 10 1 ∧
    linspace 1 10 10 = Res.ok [1, 2, 3, 4, 5, 6, 7, 8, 9, 10] := by
  have hconc : linspace 1 10 10 = Res.ok [1, 2, 3, 4, 5, 6, 7, 8, 9, 10] := by
    simp only [linspace, setAt, writeLoop, Res.bind, List.replicate, List.range']
    norm_num [List.set]
  refine ⟨?_, ?_, hconc⟩
  · intro s e l hl
    obtain ⟨v, heq, hlen, hget⟩ := linspace_closed s e l (by omega)
    have hl1 : (1 : ℕ) < l := by omega
    have hlQ : ((l : ℚ) - 1) ≠ 0 := by
      have : (2 : ℚ) ≤ (l : ℚ) := by exact_mod_cast hl
      linarith
    refine ⟨v, heq, hlen, ?_, ?_, ?_⟩
    · rw [hget 0 (by omega)]
      have h0 : (0 : ℕ) ≠ l - 1 := by omega
      simp [h0]
    · rw [hget (l - 1) (by omega)]
      simp
    · intro i hi
      rw [hget i hi]
      by_cases he : i = l - 1
      · subst he
        rw [if_pos rfl]
        rw [Nat.cast_sub (by omega : 1 ≤ l)]
        push_cast
        field_simp
      · rw [if_neg he]
        by_cases h0 : i = 0
        · subst h0
          simp
        · rw [if_neg h0, if_pos hl1]
          ring
  · have h9 : ⌊((10 : ℚ) - 1) / 1⌋ = (9 : ℤ) := by
      rw [Int.floor_eq_iff]
      · norm_num
    have hf : (⌊((10 : ℚ) - 1) / 1⌋).toNat + 1 = 10 := by rw [h9]; rfl
    rw [hconc]
    simp only [seq, if_pos (by norm_num : (1 : ℚ) ≤ 10), hf]
    norm_num [List.range_succ]

/-- Witness for C3 at start = 1, end = 10, length = 10. -/
theorem claim3_linspace_witness :
    (2 : ℕ) ≤ 10 ∧
    (∃ v, linspace 1 10 10 = Res.ok v ∧ v.length = 10 ∧
      v.getD 0 0 = 1 ∧ v.getD (10 - 1) 0 = 10 ∧
      (∀ i, i < 10 → v.getD i 0 = 1 + (i : ℚ) * (10 - 1) / ((10 : ℚ) - 1))) :=
  ⟨by norm_num, claim3_linspace.1 1 10 10 (by norm_num)⟩

/-- C7: for every start, end with end < start, and any step, length and
base, `seq` and `logspace` fail with the InvalidRange condition (the guard
runs before the result sequence is built). -/
theorem claim7_invalid_range :
    ∀ (s e step b : ℚ) (l : ℕ), e < s →
      seq s e step = Res.err ErrKind.InvalidRange ∧
      logspace s e l b = Res.err ErrKind.InvalidRange := by
  intro s e step b l h
  have hns : ¬ s ≤ e := not_le.mpr h
  constructor
  · rw [seq, if_neg hns]
  · rw [logspace, if_neg hns]

/-- Witness for C7 at start = 1, end = 0, step = 1, length = 3, base = 2. -/
theorem claim7_invalid_range_witness :
    (0 : ℚ) < 1 ∧
    (seq 1 0 1 = Res.err ErrKind.InvalidRange ∧
     logspace 1 0 3 2 = Res.err ErrKind.InvalidRange) :=
  ⟨by norm_num, claim7_invalid_range 1 0 1 2 3 (by norm_num)⟩

/-- C10: `linspace` and `linspace_with_precision` succeed for every
length ≥ 1 (every internal index access is in bounds), and fail at
length 0 — the write into the last slot is out of bounds — instead of
returning an empty sequence. -/
theorem claim10_length_totality :
    ∀ (s e : ℚ) (l p : ℕ),
      (1 ≤ l → (∃ v, linspace s e l = Res.ok v) ∧
        (∃ w, linspace_with_precision s e l p = Res.ok w)) ∧
      linspace s e 0 = Res.err ErrKind.IndexOutOfBounds ∧
      linspace_with_precision s e 0 p = Res.err ErrKind.IndexOutOfBounds := by
  intro s e l p
  refine ⟨?_, rfl, rfl⟩
  intro h1
  obtain ⟨v, hv, -, -⟩ := linspace_closed s e l h1
  exact ⟨⟨v, hv⟩, lwp_total s e l p h1⟩

/-- Witness for C10 at start = 0, end = 1, length = 3, precision = 2. -/
theorem claim10_length_totality_witness :
    (1 : ℕ) ≤ 3 ∧
    ((∃ v, linspace 0 1 3 = Res.ok v) ∧
     (∃ w, linspace_with_precision 0 1 3 2 = Res.ok w)) :=
  ⟨by norm_num, (claim10_length_totality 0 1 3 2).1 (by norm_num)⟩

/-- C4 fails on the code at length 1: `linspace(0, 1, 1)` produces [1]
(end overwrites start), while `logspace(0, 1, 1, 2)` exponentiates the
start, producing [2^0] = [1] ≠ [2^1]. -/
theorem claim4_counterexample :
    ¬ (∃ xs, linspace 0 1 1 = Res.ok xs ∧
        logspace 0 1 1 2 = Res.ok (xs.map (powQ 2))) := by
  rintro ⟨xs, h1, h2⟩
  have hl : linspace 0 1 1 = Res.ok [1] := rfl
  rw [hl] at h1
  have hxs : xs = [1] := by
    have := congrArg (fun r => match r with
      | Res.ok v => v
      | Res.err _ => []) h1
    simpa using this.symm
  subst hxs
  have hlog : logspace 0 1 1 2 = Res.ok [1] := by
    simp only [logspace, if_pos (by norm_num : (0:ℚ) ≤ 1)]
    norm_num [powQ, List.range_succ]
  rw [hlog] at h2
  have hmap : List.map (powQ 2) [(1:ℚ)] = [2] := by
    norm_num [powQ, Rat.den_ofNat, Rat.num_ofNat]
  rw [hmap] at h2
  have h12 := congrArg (fun r => match r with
    | Res.ok v => v.getD 0 0
    | Res.err _ => 0) h2
  norm_num at h12

/-- C4 amended: for every start ≤ end, every base and every length ≥ 2,
`logspace(start, end, length, base)` equals the element-wise image under
x ↦ base^x of the sequence produced by `linspace(start, end, length)` (at
length 1 logspace exponentiates start while linspace returns [end], and at
length 0 linspace fails while logspace returns []); the concrete example
logspace(0, 10, 11, 2) = [1, 2, 4, ..., 1024] holds. -/
theorem claim4_amended :
    (∀ (s e b : ℚ) (l : ℕ), s ≤ e → 2 ≤ l →
      ∃ xs, linspace s e l = Res.ok xs ∧
        logspace s e l b = Res.ok (xs.map (powQ b))) ∧
    logspace 0 10 11 2 =
      Res.ok [1, 2, 4, 8, 16, 32, 64, 128, 256, 512, 1024] := by
  have hgen : ∀ (s e b : ℚ) (l : ℕ), s ≤ e → 2 ≤ l →
      ∃ xs, linspace s e l = Res.ok xs ∧
        logspace s e l b = Res.ok (xs.map (powQ b)) := by
    intro s e b l hse hl
    obtain ⟨xs, heq, hlen, hget⟩ := linspace_closed s e l (by omega)
    have hl1 : (1 : ℕ) < l := by omega
    have hlQ : ((l : ℚ) - 1) ≠ 0 := by
      have h2 : (2 : ℚ) ≤ (l : ℚ) := by exact_mod_cast hl
      linarith
    refine ⟨xs, heq, ?_⟩
    simp only [logspace, if_pos hse]
    congr 1
    refine List.ext_getElem
      (by simp only [List.length_map, List.length_range, hlen]) ?_
    intro i hi1 hi2
    have hi : i < l := by
      simp only [List.length_map, List.length_range] at hi1
      exact hi1
    simp only [List.getElem_map, List.getElem_range]
    have hx : xs[i] = xs.getD i 0 :=
      (List.getD_eq_getElem xs 0 (by rw [hlen]; exact hi)).symm
    rw [hx, hget i hi]
    by_cases hil : i = l - 1
    · subst hil
      rw [if_pos rfl]
      congr 1
      rw [if_pos hl1, Nat.cast_sub (by omega : 1 ≤ l)]
      push_cast
      field_simp
    · rw [if_neg hil]
      by_cases hi0 : i = 0
      · subst hi0
        rw [if_pos rfl]
        congr 1
        norm_num
      · rw [if_neg hi0]
  refine ⟨hgen, ?_⟩
  have hxs : linspace 0 10 11 = Res.ok [0, 1, 2, 3, 4, 5, 6, 7, 8, 9, 10] := by
    simp only [linspace, setAt, writeLoop, Res.bind, List.replicate,
      List.range']
    norm_num [List.set]
  obtain ⟨xs, h1, h2⟩ := hgen 0 10 2 11 (by norm_num) (by norm_num)
  rw [hxs] at h1
  have hxseq : xs = [0, 1, 2, 3, 4, 5, 6, 7, 8, 9, 10] := by
    have := congrArg (fun r => match r with
      | Res.ok v => v
      | Res.err _ => []) h1
    simpa using this.symm
  subst hxseq
  rw [h2]
  congr 1
  norm_num [powQ, Rat.den_ofNat, Rat.num_ofNat]

/-- Witness for the amended C4 at start = 0, end = 1, base = 3, length = 2. -/
theorem claim4_amended_witness :
    (0 : ℚ) ≤ 1 ∧ (2 : ℕ) ≤ 2 ∧
    (∃ xs, linspace 0 1 2 = Res.ok xs ∧
      logspace 0 1 2 3 = Res.ok (xs.map (powQ 3))) :=
  ⟨by norm_num, by norm_num, claim4_amended.1 0 1 3 2 (by norm_num) (by norm_num)⟩

/-- C5 fails on the code: `linspace(1, 2, 1)` returns [2], not [1] — the
write of `end` into the single slot overwrites `start`. -/
theorem claim5_counterexample : ¬ (linspace 1 2 1 = Res.ok [1]) := by
  intro hc
  have h : linspace 1 2 1 = Res.ok [2] := rfl
  rw [h] at hc
  have h21 := congrArg (fun r => match r with
    | Res.ok v => v.getD 0 0
    | Res.err _ => 0) hc
  norm_num at h21

/-- C5 amended: for every start and end, `linspace(start, end, 1)` returns a
single-element sequence whose element equals end (the write of end into the
last slot overwrites start; the element equals start only when start = end). -/
theorem claim5_amended : ∀ s e : ℚ, linspace s e 1 = Res.ok [e] :=
  fun _ _ => rfl

theorem change_shape_row (m : Matrix) : m.change_shape.row = m.row := by
  rcases m with ⟨d, r, c, sh⟩
  cases sh <;> rfl

theorem change_shape_col (m : Matrix) : m.change_shape.col = m.col := by
  rcases m with ⟨d, r, c, sh⟩
  cases sh <;> rfl

theorem normCol_row (m : Matrix) :
    (if m.shape = Shape.Col then m else m.change_shape).row = m.row := by
  by_cases h : m.shape = Shape.Col
  · rw [if_pos h]
  · rw [if_neg h, change_shape_row]

theorem normCol_col (m : Matrix) :
    (if m.shape = Shape.Col then m else m.change_shape).col = m.col := by
  by_cases h : m.shape = Shape.Col
  · rw [if_pos h]
  · rw [if_neg h, change_shape_col]

theorem normRow_row (m : Matrix) :
    (if m.shape = Shape.Row then m else m.change_shape).row = m.row := by
  by_cases h : m.shape = Shape.Row
  · rw [if_pos h]
  · rw [if_neg h, change_shape_row]

theorem normRow_col (m : Matrix) :
    (if m.shape = Shape.Row then m else m.change_shape).col = m.col := by
  by_cases h : m.shape = Shape.Row
  · rw [if_pos h]
  · rw [if_neg h, change_shape_col]

/-- C2: `cbind` on matrices with equal row counts yields a ColMajor matrix
with the row count unchanged and the column counts summed, and fails with
the DimensionMismatch condition on unequal row counts; symmetrically,
`rbind` on equal column counts yields a RowMajor matrix with the columns
unchanged and the row counts summed, failing with DimensionMismatch on
unequal column counts. -/
theorem claim2_cbind_rbind :
    ∀ m1 m2 : Matrix,
      ((m1.row = m2.row → ∃ m, cbind m1 m2 = Res.ok m ∧
          m.shape = Shape.Col ∧ m.row = m1.row ∧ m.col = m1.col + m2.col) ∧
       (m1.row ≠ m2.row → cbind m1 m2 = Res.err ErrKind.DimensionMismatch)) ∧
      ((m1.col = m2.col → ∃ m, rbind m1 m2 = Res.ok m ∧
          m.shape = Shape.Row ∧ m.row = m1.row + m2.row ∧ m.col = m1.col) ∧
       (m1.col ≠ m2.col → rbind m1 m2 = Res.err ErrKind.DimensionMismatch)) := by
  intro m1 m2
  have e1 := normCol_row m1
  have e2 := normCol_row m2
  have f1 := normCol_col m1
  have f2 := normCol_col m2
  have g1 := normRow_row m1
  have g2 := normRow_row m2
  have k1 := normRow_col m1
  have k2 := normRow_col m2
  refine ⟨⟨?_, ?_⟩, ?_, ?_⟩
  · intro hrow
    simp only [cbind]
    rw [if_pos (by rw [e1, e2]; exact hrow)]
    refine ⟨_, rfl, rfl, e1, ?_⟩
    show (if m1.shape = Shape.Col then m1 else m1.change_shape).col
      + (if m2.shape = Shape.Col then m2 else m2.change_shape).col
      = m1.col + m2.col
    rw [f1, f2]
  · intro hrow
    simp only [cbind]
    rw [if_neg (fun hc => hrow (by rw [e1, e2] at hc; exact hc))]
  · intro hcol
    simp only [rbind]
    rw [if_pos (by rw [k1, k2]; exact hcol)]
    refine ⟨_, rfl, rfl, ?_, k1⟩
    show (if m1.shape = Shape.Row then m1 else m1.change_shape).row
      + (if m2.shape = Shape.Row then m2 else m2.change_shape).row
      = m1.row + m2.row
    rw [g1, g2]
  · intro hcol
    simp only [rbind]
    rw [if_neg (fun hc => hcol (by rw [k1, k2] at hc; exact hc))]

/-- Witness for C2: cbind of a 1×2 and a 1×1 matrix, rbind of a 1×2 and a
2×2 matrix. -/
theorem claim2_cbind_rbind_witness :
    ((matrix [1, 2] 1 2 Shape.Row).row = (matrix [3] 1 1 Shape.Row).row ∧
      (∃ m, cbind (matrix [1, 2] 1 2 Shape.Row) (matrix [3] 1 1 Shape.Row)
          = Res.ok m ∧
        m.shape = Shape.Col ∧ m.row = (matrix [1, 2] 1 2 Shape.Row).row ∧
        m.col = (matrix [1, 2] 1 2 Shape.Row).col
          + (matrix [3] 1 1 Shape.Row).col)) ∧
    ((matrix [1, 2] 1 2 Shape.Row).col = (matrix [3, 4, 5, 6] 2 2 Shape.Row).col ∧
      (∃ m, rbind (matrix [1, 2] 1 2 Shape.Row) (matrix [3, 4, 5, 6] 2 2 Shape.Row)
          = Res.ok m ∧
        m.shape = Shape.Row ∧
        m.row = (matrix [1, 2] 1 2 Shape.Row).row
          + (matrix [3, 4, 5, 6] 2 2 Shape.Row).row ∧
        m.col = (matrix [1, 2] 1 2 Shape.Row).col)) :=
  ⟨⟨rfl, (claim2_cbind_rbind (matrix [1, 2] 1 2 Shape.Row)
      (matrix [3] 1 1 Shape.Row)).1.1 rfl⟩,
   ⟨rfl, (claim2_cbind_rbind (matrix [1, 2] 1 2 Shape.Row)
      (matrix [3, 4, 5, 6] 2 2 Shape.Row)).2.1 rfl⟩⟩

theorem foldl_preserve {α β : Type} (P : α → Prop) (f : α → β → α)
    (hstep : ∀ x b, P x → P (f x b)) :
    ∀ (l : List β) (a : α), P a → P (l.foldl f a) := by
  intro l
  induction l with
  | nil => intro a h; exact h
  | cons x xs ih => intro a h; exact ih (f a x) (hstep a x h)

/-- C6 fails on the code as stated with a half-open interval: the source
draws from the inclusive range `0f64..=1f64`, so the constant-1 stream is a
valid draw sequence, and rand(1, 1) then contains the element 1, which is
not < 1. -/
theorem claim6_counterexample :
    validDraws (fun _ => 1) ∧
    ¬ (∀ x ∈ (rand 1 1 (fun _ => 1)).data, x < 1) := by
  constructor
  · intro n
    constructor <;> norm_num
  · intro h
    have h1 : (1 : ℚ) ∈ (rand 1 1 (fun _ => 1)).data := by
      have hd : (rand 1 1 (fun _ => 1)).data = [1] := rfl
      rw [hd]
      exact List.mem_singleton.mpr rfl
    exact absurd (h 1 h1) (by norm_num)

/-- C6 amended: for every r, c and every valid draw stream of
`gen_range(0f64..=1f64)` (values in the closed interval [0, 1]), every
element of rand(r, c) lies in [0, 1] — 1 itself is attainable — and the
result is Row-shaped with r rows and c columns. -/
theorem claim6_amended :
    ∀ (r c : ℕ) (d : ℕ → ℚ), validDraws d →
      (rand r c d).shape = Shape.Row ∧ (rand r c d).row = r ∧
      (rand r c d).col = c ∧
      ∀ x ∈ (rand r c d).data, 0 ≤ x ∧ x ≤ 1 := by
  intro r c d hd
  have hkey := foldl_preserve
    (fun m => m.shape = Shape.Row ∧ m.row = r ∧ m.col = c ∧
      ∀ x ∈ m.data, 0 ≤ x ∧ x ≤ 1)
    (fun m i => (List.range c).foldl
      (fun m2 j => m2.setIdx i j (d (i * c + j))) m)
    (fun m i hm => foldl_preserve
      (fun m2 => m2.shape = Shape.Row ∧ m2.row = r ∧ m2.col = c ∧
        ∀ x ∈ m2.data, 0 ≤ x ∧ x ≤ 1)
      (fun m2 j => m2.setIdx i j (d (i * c + j)))
      (fun m2 j hm2 => ⟨hm2.1, hm2.2.1, hm2.2.2.1, by
        intro x hx
        rcases List.mem_or_eq_of_mem_set hx with hmem | heq
        · exact hm2.2.2.2 x hmem
        · subst heq
          exact hd (i * c + j)⟩)
      (List.range c) m hm)
    (List.range r) (zeros r c)
    ⟨rfl, rfl, rfl, by
      intro x hx
      have h0 : x = 0 := (List.eq_of_mem_replicate hx)
      subst h0
      norm_num⟩
  exact hkey

/-- Witness for the amended C6 with the constant-1/2 draw stream on a 2×2
matrix. -/
theorem claim6_amended_witness :
    validDraws (fun _ => 1/2) ∧
    ((rand 2 2 (fun _ => 1/2)).shape = Shape.Row ∧
     (rand 2 2 (fun _ => 1/2)).row = 2 ∧
     (rand 2 2 (fun _ => 1/2)).col = 2 ∧
     ∀ x ∈ (rand 2 2 (fun _ => 1/2)).data, 0 ≤ x ∧ x ≤ 1) :=
  ⟨fun _ => ⟨by norm_num, by norm_num⟩,
   claim6_amended 2 2 (fun _ => 1/2) (fun _ => ⟨by norm_num, by norm_num⟩)⟩

/-- C8: for the f64 scalar, `norm` returns the absolute value for every
Norm kind, and for nonzero finite x, `normalize` returns x / |x|, which is
the sign ±1 of x. -/
theorem claim8_scalar_norm :
    (∀ (x : F64) (k : Norm), F64.norm x k = x.abs) ∧
    (∀ (q : ℚ) (k : Norm), F64.norm (F64.finite q) k = F64.finite |q|) ∧
    (∀ (q : ℚ) (k : Norm), q ≠ 0 →
      F64.normalize (F64.finite q) k = F64.finite (q / |q|) ∧
      (F64.normalize (F64.finite q) k = F64.finite 1 ∨
       F64.normalize (F64.finite q) k = F64.finite (-1))) := by
  refine ⟨fun x k => rfl, fun q k => rfl, ?_⟩
  intro q k hq
  have habs : |q| ≠ 0 := abs_ne_zero.mpr hq
  have hdiv : F64.normalize (F64.finite q) k = F64.finite (q / |q|) := by
    simp only [F64.normalize, F64.norm, F64.abs, F64.div]
    rw [if_neg habs]
  refine ⟨hdiv, ?_⟩
  rcases lt_or_gt_of_ne hq with hneg | hpos
  · right
    rw [hdiv, abs_of_neg hneg]
    rw [div_neg, div_self hq]
  · left
    rw [hdiv, abs_of_pos hpos]
    rw [div_self hq]

/-- Witness for C8 at x = -3, kind = L2: normalize gives -3 / |-3| = -1. -/
theorem claim8_scalar_norm_witness :
    ((-3 : ℚ) ≠ 0) ∧
    (F64.normalize (F64.finite (-3)) Norm.L2 = F64.finite ((-3) / |(-3 : ℚ)|) ∧
     (F64.normalize (F64.finite (-3)) Norm.L2 = F64.finite 1 ∨
      F64.normalize (F64.finite (-3)) Norm.L2 = F64.finite (-1))) :=
  ⟨by norm_num, claim8_scalar_norm.2.2 (-3) Norm.L2 (by norm_num)⟩

/-- C9: for every Norm kind, `normalize` on the f64 value 0 raises no
error: the unguarded division 0/0 executes and the result is the
non-finite value NaN. -/
theorem claim9_normalize_zero :
    ∀ k : Norm, F64.normalize (F64.finite 0) k = F64.nan := by
  intro k
  simp [F64.normalize, F64.abs, F64.div, abs_zero]

end Peroxide
